import Mathlib

/-!
Shallow embedding of the specfile repository's comment, tag, sourcelist and
spec-parser components (src/specfile/tags.py, src/specfile/sourcelist.py and
src/specfile/spec_parser.py), together with theorems settling the frozen
claims about them.

Python strings are modelled as lists of characters; a "line" is one such list
and may, exactly like a Python str, contain any character including a newline.
The regular expressions used by the source are few and fixed; they are
embedded as hand-rolled matchers whose greedy/backtracking behaviour on these
fixed patterns is reproduced and justified in comments at each definition.
-/

namespace Specfile

abbrev Line : Type := List Char

/-- Character list of a string literal. -/
def chars (s : String) : Line := s.data

/-- ASCII range of the character class backslash-s of the Python re module:
space, tab, newline, carriage return, vertical tab, form feed. -/
def isSpace (c : Char) : Bool :=
  c = ' ' || c = '\t' || c = '\n' || c = '\r' || c = '\x0b' || c = '\x0c'

/-- Tail part "dot-star dollar" of the comment regex in Comments.parse,
applied after the whitespace that follows the hash. In Python, dot does not
match a newline, and dollar matches at the end of the string or immediately
before a newline that ends the string. The star is greedy, so the text group
is the longest newline-free prefix; if what remains after it is neither empty
nor a single trailing newline, no shorter text group can help (the position
after a shorter group is followed by a non-newline character, where dollar
cannot match), so the whole tail fails. -/
def dotStarDollar (s : Line) : Option Line :=
  let t := s.takeWhile (fun c => c != '\n')
  let e := s.drop t.length
  if e = [] ∨ e = ['\n'] then some t else none

/-- Backtracking for the part of the comment regex after the hash
(whitespace-star, then dot-star dollar): k is the number of whitespace
characters the greedy whitespace-star currently keeps; on failure of the rest
it gives one character back. -/
def hashTailAux (r : Line) : Nat → Option (Line × Line)
  | 0 => (dotStarDollar r).map (fun t => (([] : Line), t))
  | k+1 =>
    match dotStarDollar (r.drop (k+1)) with
    | some t => some (r.take (k+1), t)
    | none => hashTailAux r k

/-- Greedy entry point: the whitespace-star first tries to keep the whole
maximal whitespace run after the hash. -/
def hashTail (r : Line) : Option (Line × Line) :=
  hashTailAux r (r.takeWhile isSpace).length

/-- Matcher for the comment regex of Comments.parse in tags.py: caret, group
one = whitespace-star hash whitespace-star, group two = dot-star, dollar.
Returns (group one, group two). The leading whitespace-star is greedy and
backtracking over it cannot help: any shorter whitespace prefix is followed by
another whitespace character, never by the required hash, so the hash must sit
directly after the maximal whitespace prefix. -/
def commentMatch (l : Line) : Option (Line × Line) :=
  match l.dropWhile isSpace with
  | [] => none
  | c :: r =>
    if c = '#' then
      (hashTail r).map (fun wt => (l.takeWhile isSpace ++ c :: wt.1, wt.2))
    else none

/-- Model of the Comment class of tags.py (attributes text and prefix; the
attribute prefix is renamed pfx because prefix is reserved in Lean). -/
structure Comment where
  text : Line
  pfx : Line
deriving DecidableEq

/-- Reconstruction of a comment line, Comment.__str__ in tags.py. -/
def Comment.render (c : Comment) : Line := c.pfx ++ c.text

/-- Model of the Comments class of tags.py: a run of comments plus the raw
lines preceding it. -/
structure Comments where
  data : List Comment
  preceding_lines : List Line
deriving DecidableEq

/-- One step of the loop in Comments.parse: the Python loop walks the lines in
reverse order, prepending as it goes; a line joins the comments only when the
comment regex matches it and no preceding line has been recorded yet. -/
def parseStep (st : List Comment × List Line) (l : Line) : List Comment × List Line :=
  match commentMatch l with
  | some pt => if st.2 = [] then (⟨pt.2, pt.1⟩ :: st.1, st.2) else (st.1, l :: st.2)
  | none => (st.1, l :: st.2)

/-- Comments.parse of tags.py. -/
def Comments.parse (lines : List Line) : Comments :=
  ⟨(lines.reverse.foldl parseStep ([], [])).1,
    (lines.reverse.foldl parseStep ([], [])).2⟩

/-- Comments.get_raw_data of tags.py. -/
def Comments.get_raw_data (c : Comments) : List Line :=
  c.preceding_lines ++ c.data.map Comment.render

/-- Whether the comment regex matches a line. -/
def isCommentLine (l : Line) : Bool := (commentMatch l).isSome

/-- The Comment built from a line the comment regex matches (Python builds
Comment(text, prefix) from the reversed match groups). -/
def mkComment (l : Line) : Comment :=
  match commentMatch l with
  | some pt => ⟨pt.2, pt.1⟩
  | none => ⟨[], []⟩

/-- A line free of newline characters. -/
def noNL (l : Line) : Bool := l.all (fun c => c != '\n')

/-- A list of lines all free of newline characters. -/
def noNLs (ls : List Line) : Bool := ls.all noNL

theorem takeWhile_eq_self_of_all {p : Char → Bool} {l : Line}
    (h : ∀ c ∈ l, p c = true) : l.takeWhile p = l := by
  induction l with
  | nil => rfl
  | cons a l ih =>
    rw [List.takeWhile_cons_of_pos (h a (by simp))]
    rw [ih (fun c hc => h c (by simp [hc]))]

theorem noNL_drop {r : Line} (h : noNL r = true) (n : Nat) : noNL (r.drop n) = true := by
  simp only [noNL, List.all_eq_true] at h ⊢
  exact fun c hc => h c (List.mem_of_mem_drop hc)

theorem dotStarDollar_of_noNL {s : Line} (h : noNL s = true) :
    dotStarDollar s = some s := by
  have hall : s.takeWhile (fun c => c != '\n') = s :=
    takeWhile_eq_self_of_all (by simpa [noNL, List.all_eq_true] using h)
  simp [dotStarDollar, hall, List.drop_length]

theorem hashTail_of_noNL {r : Line} (h : noNL r = true) :
    hashTail r = some (r.take (r.takeWhile isSpace).length,
      r.drop (r.takeWhile isSpace).length) := by
  unfold hashTail
  cases hk : (r.takeWhile isSpace).length with
  | zero =>
    simp only [hashTailAux]
    rw [dotStarDollar_of_noNL h]
    simp
  | succ k =>
    simp only [hashTailAux]
    rw [dotStarDollar_of_noNL (noNL_drop h (k+1))]

theorem commentMatch_render {l : Line} {p t : Line} (hn : noNL l = true)
    (h : commentMatch l = some (p, t)) : p ++ t = l := by
  unfold commentMatch at h
  split at h
  · exact absurd h (by simp)
  · rename_i c r hd
    split at h
    · rename_i hc
      subst hc
      have hr : noNL r = true := by
        simp only [noNL, List.all_eq_true] at hn ⊢
        intro x hx
        have hx1 : x ∈ l.dropWhile isSpace := by rw [hd]; simp [hx]
        exact hn x (List.Sublist.mem hx1 (List.dropWhile_sublist _))
      rw [hashTail_of_noNL hr] at h
      simp only [Option.map_some', Option.some.injEq, Prod.mk.injEq] at h
      obtain ⟨hp, ht⟩ := h
      rw [← hp, ← ht]
      have h2 : l.takeWhile isSpace ++ '#' :: (r.take (r.takeWhile isSpace).length ++
          r.drop (r.takeWhile isSpace).length) = l := by
        rw [List.take_append_drop, ← hd, List.takeWhile_append_dropWhile]
      simpa using h2
    · exact absurd h (by simp)

theorem parseFold_ps_ne (R : List Line) : ∀ cs ps, ps ≠ [] →
    R.foldl parseStep (cs, ps) = (cs, R.reverse ++ ps) := by
  induction R with
  | nil => intro cs ps _; simp
  | cons l R ih =>
    intro cs ps hps
    have hstep : parseStep (cs, ps) l = (cs, l :: ps) := by
      unfold parseStep
      cases commentMatch l with
      | none => rfl
      | some pt => simp [hps]
    rw [List.foldl_cons, hstep, ih cs (l :: ps) (by simp)]
    simp

theorem parseFold_main (R : List Line) : ∀ cs,
    R.foldl parseStep (cs, []) =
      ((R.takeWhile isCommentLine).reverse.map mkComment ++ cs,
        (R.dropWhile isCommentLine).reverse) := by
  induction R with
  | nil => intro cs; simp
  | cons l R ih =>
    intro cs
    by_cases hl : isCommentLine l = true
    · obtain ⟨pt, hpt⟩ := Option.isSome_iff_exists.mp hl
      have hstep : parseStep (cs, []) l = (⟨pt.2, pt.1⟩ :: cs, []) := by
        unfold parseStep; rw [hpt]; simp
      have hmk : mkComment l = ⟨pt.2, pt.1⟩ := by
        unfold mkComment; rw [hpt]
      rw [List.foldl_cons, hstep, ih]
      rw [List.takeWhile_cons_of_pos hl, List.dropWhile_cons_of_pos hl]
      simp [hmk]
    · have hnone : commentMatch l = none := by
        rcases h : commentMatch l with _ | pt
        · rfl
        · exact absurd (by simp [isCommentLine, h]) hl
      have hstep : parseStep (cs, []) l = (cs, [l]) := by
        unfold parseStep; rw [hnone]
      rw [List.foldl_cons, hstep,
        parseFold_ps_ne R cs [l] (by simp)]
      rw [List.takeWhile_cons_of_neg (by simpa using hl),
        List.dropWhile_cons_of_neg (by simpa using hl)]
      simp

theorem dropWhile_space_decomp {w1 : Line} {x : Line} (hw : w1.all isSpace = true) :
    (w1 ++ '#' :: x).dropWhile isSpace = '#' :: x := by
  induction w1 with
  | nil =>
    rw [List.nil_append]
    exact List.dropWhile_cons_of_neg (by decide)
  | cons a w ih =>
    simp only [List.all_cons, Bool.and_eq_true] at hw
    rw [List.cons_append, List.dropWhile_cons_of_pos hw.1, ih hw.2]

/-- Comments.parse scans the lines backward: the comment run is exactly the
maximal suffix of lines matched by the comment regex, every line from the last
regex failure on down (scanning backward) lands in the preceding lines even if
it would match the regex, and on newline-free lines the regex matches exactly
the lines of the form optional whitespace, hash, optional whitespace, free
text. -/
theorem claim_C8_backward_scan (lines : List Line) :
    (Comments.parse lines).data =
      (lines.reverse.takeWhile isCommentLine).reverse.map mkComment
    ∧ (Comments.parse lines).preceding_lines =
      (lines.reverse.dropWhile isCommentLine).reverse
    ∧ (∀ l : Line, noNL l = true →
        (isCommentLine l = true ↔
          ∃ w1 w2 t : Line, l = w1 ++ '#' :: (w2 ++ t)
            ∧ w1.all isSpace = true ∧ w2.all isSpace = true)) := by
  refine ⟨?_, ?_, ?_⟩
  · unfold Comments.parse
    rw [parseFold_main]
    simp
  · unfold Comments.parse
    rw [parseFold_main]
  · intro l hnl
    constructor
    · intro h
      obtain ⟨pt, hpt⟩ := Option.isSome_iff_exists.mp h
      unfold commentMatch at hpt
      split at hpt
      · exact absurd hpt (by simp)
      · rename_i c r hd
        split at hpt
        · rename_i hc
          subst hc
          refine ⟨l.takeWhile isSpace, [], r, ?_, ?_, by simp⟩
          · have h2 := List.takeWhile_append_dropWhile isSpace l
            rw [hd] at h2
            simpa using h2.symm
          · simp only [List.all_eq_true]
            intro x hx
            exact List.mem_takeWhile_imp hx
        · exact absurd hpt (by simp)
    · rintro ⟨w1, w2, t, rfl, hw1, hw2⟩
      have hr : noNL (w2 ++ t) = true := by
        simp only [noNL, List.all_eq_true] at hnl ⊢
        intro x hx
        exact hnl x (by simp [hx])
      unfold isCommentLine commentMatch
      rw [dropWhile_space_decomp hw1]
      simp [hashTail_of_noNL hr]

theorem render_mkComment {l : Line} (hc : isCommentLine l = true)
    (hn : noNL l = true) : (mkComment l).render = l := by
  obtain ⟨pt, hpt⟩ := Option.isSome_iff_exists.mp hc
  unfold mkComment
  rw [hpt]
  exact commentMatch_render hn (by rw [hpt])

theorem map_id_of_mem {f : Line → Line} {l : List Line}
    (h : ∀ x ∈ l, f x = x) : l.map f = l := by
  induction l with
  | nil => rfl
  | cons a l ih =>
    rw [List.map_cons, h a (by simp), ih (fun x hx => h x (by simp [hx]))]

theorem comments_parse_raw_data (lines : List Line) (h : noNLs lines = true) :
    (Comments.parse lines).get_raw_data = lines := by
  unfold Comments.get_raw_data Comments.parse
  rw [parseFold_main]
  simp only [List.append_nil, List.map_reverse, List.map_map]
  have hmap : (lines.reverse.takeWhile isCommentLine).map (Comment.render ∘ mkComment) =
      lines.reverse.takeWhile isCommentLine := by
    apply map_id_of_mem
    intro x hx
    have hc : isCommentLine x = true := List.mem_takeWhile_imp hx
    have hxl : x ∈ lines := by
      have h1 : x ∈ lines.reverse :=
        List.Sublist.mem hx (List.takeWhile_sublist _)
      simpa using h1
    have hn : noNL x = true := by
      simp only [noNLs, List.all_eq_true] at h
      exact h x hxl
    exact render_mkComment hc hn
  rw [hmap, ← List.reverse_append, List.takeWhile_append_dropWhile,
    List.reverse_reverse]

/-- Round trip of Comments: on every list of newline-free lines, parsing then
rendering reproduces the input exactly. -/
theorem claim_C10_roundtrip (lines : List Line) (h : noNLs lines = true) :
    (Comments.parse lines).get_raw_data = lines :=
  comments_parse_raw_data lines h

theorem claim_C8_witness :
    (Comments.parse [chars "x", chars "# a"]).preceding_lines = [chars "x"]
    ∧ isCommentLine (chars "# a") = true := by
  have h := claim_C8_backward_scan [chars "x", chars "# a"]
  constructor
  · rw [h.2.1]
    decide
  · exact (h.2.2 (chars "# a") (by decide)).mpr
      ⟨[], [' '], chars "a", by decide, by decide, by decide⟩

/-- Counterexample to the unrestricted round trip of Comments on arbitrary
Python strings: on the single line hash a newline, the dollar of the comment
regex matches just before the trailing newline, so the line is taken as a
comment whose prefix and text concatenate to hash a, and the newline is lost
on rendering. -/
theorem claim_C10_counterexample :
    (Comments.parse [chars "#a\n"]).get_raw_data ≠ [chars "#a\n"] := by decide

theorem claim_C10_witness :
    noNLs [chars "# a", chars "x", chars "#b"] = true
    ∧ (Comments.parse [chars "# a", chars "x", chars "#b"]).get_raw_data
      = [chars "# a", chars "x", chars "#b"] :=
  ⟨by decide, claim_C10_roundtrip [chars "# a", chars "x", chars "#b"] (by decide)⟩

/-- Python Comment objects (tags.py) define no custom equality, so comparing
them falls back to object identity; the heap is modelled by tagging each
object with an identity. Distinct objects always have distinct identities, and
an identity determines the object's fields. -/
structure CommentObj where
  oid : Nat
  text : Line
  pfx : Line
deriving DecidableEq

/-- A Comments value as Python compares it: the underlying list of Comment
objects plus the preceding lines. -/
structure CommentsObj where
  data : List CommentObj
  preceding_lines : List Line
deriving DecidableEq

/-- The equality test Python actually runs for two Comments values: the
inherited UserList equality compares only the data lists, and Python list
equality compares the Comment elements by object identity because the Comment
class defines no equality of its own. -/
def pyEqComments (a b : CommentsObj) : Bool :=
  a.data.map CommentObj.oid == b.data.map CommentObj.oid

/-- Follows the spec's words for claim C9: structural equality of Comments —
comment sequences element-wise equal by text and prefix, and equal
precedingLines buffers. -/
def structEqComments (a b : CommentsObj) : Bool :=
  (a.data.map (fun c => (c.text, c.pfx)) == b.data.map (fun c => (c.text, c.pfx)))
    && (a.preceding_lines == b.preceding_lines)

/-- A single Comment object shared by two Comments values. -/
def sharedComment : CommentObj := ⟨0, chars "a", chars "# "⟩

/-- Counterexample to structural equality of Comments: two Comments holding
the same Comment object but different preceding lines compare equal in Python
although they are not structurally equal, and two Comments holding distinct
Comment objects with identical text and prefix compare unequal although they
are structurally equal. -/
theorem claim_C9_counterexample :
    pyEqComments ⟨[sharedComment], [chars "x"]⟩ ⟨[sharedComment], [chars "y"]⟩ = true
    ∧ structEqComments ⟨[sharedComment], [chars "x"]⟩ ⟨[sharedComment], [chars "y"]⟩ = false
    ∧ pyEqComments ⟨[⟨0, chars "a", chars "# "⟩], []⟩ ⟨[⟨1, chars "a", chars "# "⟩], []⟩ = false
    ∧ structEqComments ⟨[⟨0, chars "a", chars "# "⟩], []⟩ ⟨[⟨1, chars "a", chars "# "⟩], []⟩
      = true := by decide

/-- Equality of Comments as implemented compares only the comment sequences,
element-wise by object identity; the precedingLines buffer never participates. -/
theorem claim_C9_identity_eq (a b : CommentsObj) :
    (pyEqComments a b = true ↔ a.data.map CommentObj.oid = b.data.map CommentObj.oid)
    ∧ (∀ p q : List Line, pyEqComments ⟨a.data, p⟩ ⟨a.data, q⟩ = true) := by
  constructor
  · simp [pyEqComments]
  · intro p q
    simp [pyEqComments]

theorem claim_C9_witness :
    pyEqComments ⟨[sharedComment], [chars "x"]⟩ ⟨[sharedComment], []⟩ = true :=
  (claim_C9_identity_eq ⟨[sharedComment], [chars "x"]⟩ ⟨[sharedComment], []⟩).2
    (chars "x" :: []) []

/-- Valid tag names, the TAG_NAMES set of tags.py. Python iterates this set in
an unspecified order; the order is irrelevant because at most one of the
resulting patterns can match any given line (no recognized name extended by
its optional digits or qualifier is a prefix of a match of another), so the
set is modelled as a list in the order written in the source. -/
def TAG_NAMES : List Line :=
  [chars "name", chars "version", chars "release", chars "epoch", chars "summary",
   chars "license", chars "distribution", chars "disturl", chars "vendor", chars "group",
   chars "packager", chars "url", chars "vcs", chars "source", chars "patch",
   chars "nosource", chars "nopatch", chars "excludearch", chars "exclusivearch",
   chars "excludeos", chars "exclusiveos", chars "icon", chars "provides",
   chars "requires", chars "recommends", chars "suggests", chars "supplements",
   chars "enhances", chars "prereq", chars "conflicts", chars "obsoletes",
   chars "prefixes", chars "prefix", chars "buildroot", chars "buildarchitectures",
   chars "buildarch", chars "buildconflicts", chars "buildprereq", chars "buildrequires",
   chars "autoreqprov", chars "autoreq", chars "autoprov", chars "docdir",
   chars "disttag", chars "bugurl", chars "translationurl", chars "upstreamreleases",
   chars "orderwithrequires", chars "removepathpostfixes", chars "modularitylabel"]

/-- Tags that can optionally have an argument, the TAGS_WITH_ARG set of
tags.py. -/
def TAGS_WITH_ARG : List Line :=
  [chars "summary", chars "group", chars "requires", chars "prereq",
   chars "orderwithrequires"]

/-- Shape of the regex built by get_tag_name_regex in tags.py: the escaped
literal name, optionally extended by a parenthesized argument (for names in
TAGS_WITH_ARG) or by a digit-star suffix (for source and patch). -/
inductive NameKind
  | plain
  | withArg
  | withNum
deriving DecidableEq

structure NamePat where
  lit : Line
  kind : NameKind
deriving DecidableEq

/-- get_tag_name_regex of tags.py. Membership tests are case sensitive, as in
the source. -/
def get_tag_name_regex (name : Line) : NamePat :=
  if name ∈ TAGS_WITH_ARG then ⟨name, NameKind.withArg⟩
  else if name = chars "source" ∨ name = chars "patch" then ⟨name, NameKind.withNum⟩
  else ⟨name, NameKind.plain⟩

/-- Lowercasing used to model the re IGNORECASE flag; every literal compared
case-insensitively by the source is a lowercase ASCII tag name. -/
def lowerCh (c : Char) : Char := c.toLower

/-- Matching a literal pattern against the start of a line, returning the
matched text (in its original casing, as a regex group would) and the rest.
With ci set, the text character is lowercased before comparison. -/
def matchLit (ci : Bool) : Line → Line → Option (Line × Line)
  | [], l => some ([], l)
  | _ :: _, [] => none
  | p :: ps, c :: cs =>
    if (if ci then lowerCh c else c) = p then
      (matchLit ci ps cs).map (fun mr => (c :: mr.1, mr.2))
    else none

/-- Matcher for the optional argument part of a tag-name regex:
whitespace-star, open paren, whitespace-star, a star of characters that are
neither whitespace nor a closing paren, whitespace-star, closing paren.
Each star's extent is forced: the character classes are disjoint from what
must follow them, so backtracking inside this group can never produce a
different successful split, and the greedy maximal runs are the only
candidates. Returns (consumed text, rest). -/
def parseArg (l : Line) : Option (Line × Line) :=
  match l.dropWhile isSpace with
  | c :: r1 =>
    if c = '(' then
      match ((r1.dropWhile isSpace).dropWhile (fun x => !isSpace x && x != ')')).dropWhile
          isSpace with
      | d :: rest =>
        if d = ')' then
          some (l.takeWhile isSpace ++ c ::
            (r1.takeWhile isSpace
              ++ (r1.dropWhile isSpace).takeWhile (fun x => !isSpace x && x != ')')
              ++ ((r1.dropWhile isSpace).dropWhile
                  (fun x => !isSpace x && x != ')')).takeWhile isSpace
              ++ [d]), rest)
        else none
      | [] => none
    else none
  | [] => none

/-- Backtracking for the separator-and-value part of a tag regex after the
colon (whitespace-star, then dot-plus): k is the number of whitespace
characters the greedy whitespace-star keeps; dot-plus then takes the longest
nonempty newline-free run, and when that run is empty the star gives one
character back. -/
def sepTailAux (r : Line) : Nat → Option (Line × Line)
  | 0 =>
    if r.takeWhile (fun c => c != '\n') = [] then none
    else some ([], r.takeWhile (fun c => c != '\n'))
  | k+1 =>
    if (r.drop (k+1)).takeWhile (fun c => c != '\n') = [] then sepTailAux r k
    else some (r.take (k+1), (r.drop (k+1)).takeWhile (fun c => c != '\n'))

def sepTail (r : Line) : Option (Line × Line) :=
  sepTailAux r (r.takeWhile isSpace).length

/-- Matcher for the separator and value groups of the tag regex
(whitespace-star colon whitespace-star, then dot-plus). The whitespace-star
before the colon is forced to the maximal whitespace run: a shorter run is
followed by a whitespace character, never by the colon. Returns (separator
group, value group). The value group ends at the first newline or the end of
the line, whichever comes first, because dot does not match a newline and the
regex has no trailing anchor. -/
def matchSep (l : Line) : Option (Line × Line) :=
  match l.dropWhile isSpace with
  | c :: r =>
    if c = ':' then
      (sepTail r).map (fun wv => (l.takeWhile isSpace ++ c :: wv.1, wv.2))
    else none
  | [] => none

/-- Matcher for the full tag-line regex of Tags.parse in tags.py: caret, name
group (the name pattern), separator group, value group. For a digit-suffixed
name the digit-star is forced to the maximal digit run (a shorter run leaves a
digit where the colon or whitespace is required); for a name with an optional
argument the greedy optional group is tried with the argument first and then
without, as the regex engine would. Returns (name, separator, value) groups. -/
def matchTagLine (ci : Bool) (pat : NamePat) (l : Line) : Option (Line × Line × Line) :=
  match matchLit ci pat.lit l with
  | none => none
  | some (m, rest) =>
    match pat.kind with
    | NameKind.plain => (matchSep rest).map (fun sv => (m, sv.1, sv.2))
    | NameKind.withNum =>
      (matchSep (rest.drop (rest.takeWhile Char.isDigit).length)).map
        (fun sv => (m ++ rest.takeWhile Char.isDigit, sv.1, sv.2))
    | NameKind.withArg =>
      match parseArg rest with
      | some cr =>
        match matchSep cr.2 with
        | some sv => some (m ++ cr.1, sv.1, sv.2)
        | none => (matchSep rest).map (fun sv => (m, sv.1, sv.2))
      | none => (matchSep rest).map (fun sv => (m, sv.1, sv.2))

/-- The compiled tag regexes of Tags.parse, one per recognized name. -/
def tagPatterns : List NamePat := TAG_NAMES.map get_tag_name_regex

/-- First matching tag regex on a line, as in the loop of Tags.parse. -/
def matchTagAny (l : Line) : Option (Line × Line × Line) :=
  tagPatterns.findSome? (fun p => matchTagLine true p l)

/-- Model of the Tag class of tags.py. The expanded value is optional: Python
stores None for a tag with no counterpart in the parsed section. -/
structure Tag where
  name : Line
  value : Line
  expanded_value : Option Line
  separator : Line
  comments : Comments
deriving DecidableEq

/-- The error raised by Tag.__init__ for an invalid name (a ValueError in
Python; the spec calls it InvalidName). -/
inductive TagError
  | invalidName
deriving DecidableEq

/-- Whether one compiled name regex matches at the start of a name, as
r.match(name) does in Tag.__init__. The optional argument group and the
digit-star can always match the empty string, so a match exists exactly when
the literal part matches a prefix of the name. -/
def nameMatches (pat : NamePat) (name : Line) : Bool :=
  (matchLit true pat.lit name).isSome

/-- The validity test of Tag.__init__ in tags.py: the name is falsy (empty) or
no name regex matches a prefix of it. -/
def tagNameAccepted (name : Line) : Bool :=
  !name.isEmpty && TAG_NAMES.any (fun t => nameMatches (get_tag_name_regex t) name)

/-- Validating constructor Tag.__init__ of tags.py. -/
def mkTag (name value : Line) (ev : Option Line) (sep : Line) (cs : Comments) :
    Except TagError Tag :=
  if tagNameAccepted name then Except.ok ⟨name, value, ev, sep, cs⟩
  else Except.error TagError.invalidName

def isOkE (e : Except TagError Tag) : Bool :=
  match e with
  | Except.ok _ => true
  | Except.error _ => false

/-- Follows the spec's words for claim C5: a name is in the recognized set
when some recognized pattern matches the ENTIRE name — the literal name
case-insensitively, extended only by a full parenthesized qualifier or by
digits where the pattern permits. -/
def nameRegexFullMatch (pat : NamePat) (name : Line) : Bool :=
  match matchLit true pat.lit name with
  | none => false
  | some mr =>
    match pat.kind with
    | NameKind.plain => mr.2.isEmpty
    | NameKind.withNum => mr.2.all Char.isDigit
    | NameKind.withArg =>
      mr.2.isEmpty ||
        (match parseArg mr.2 with
         | some cr => cr.2.isEmpty
         | none => false)

/-- Follows the spec's words for claim C5: membership of a name in the
recognized set. -/
def specRecognizedName (name : Line) : Bool :=
  TAG_NAMES.any (fun t => nameRegexFullMatch (get_tag_name_regex t) name)

/-- Counterexample to claim C5 as stated: the name urlx is outside the
recognized set (no pattern matches it entirely), yet Tag construction
succeeds, because Tag.__init__ tests the name with re match, which only
requires a match at the start of the string, and url is a prefix of urlx. -/
theorem claim_C5_counterexample :
    isOkE (mkTag (chars "urlx") (chars "v") none (chars ": ") ⟨[], []⟩) = true
    ∧ specRecognizedName (chars "urlx") = false := by decide

theorem get_tag_name_regex_lit (t : Line) : (get_tag_name_regex t).lit = t := by
  unfold get_tag_name_regex
  split
  · rfl
  · split <;> rfl

theorem matchLit_isSome_iff (lit : Line) : ∀ l : Line,
    (matchLit true lit l).isSome = true ↔ (l.map lowerCh).take lit.length = lit := by
  induction lit with
  | nil => intro l; simp [matchLit]
  | cons p ps ih =>
    intro l
    cases l with
    | nil => simp [matchLit]
    | cons c cs =>
      simp only [matchLit, if_true, List.map_cons, List.length_cons, List.take_succ_cons]
      by_cases h : lowerCh c = p
      · rw [if_pos h, h]
        simp only [Option.isSome_map', List.cons.injEq, true_and]
        exact ih cs
      · rw [if_neg h]
        simp only [Option.isSome_none, Bool.false_eq_true, false_iff]
        intro hc
        exact h (List.cons.injEq .. |>.mp hc).1

/-- Amended claim C5: Tag construction succeeds exactly when the name is
nonempty and some recognized tag name is a case-insensitive prefix of it; the
qualifier and numeric-suffix parts of the patterns are never required, and
names that merely extend a recognized name (such as urlx) are accepted. A name
failing this test raises the InvalidName error at construction time. -/
theorem claim_C5_prefix_acceptance (name value : Line) (ev : Option Line)
    (sep : Line) (cs : Comments) :
    (isOkE (mkTag name value ev sep cs) = true ↔
      name ≠ [] ∧ ∃ t ∈ TAG_NAMES, (name.map lowerCh).take t.length = t)
    ∧ (isOkE (mkTag name value ev sep cs) = false ↔
      mkTag name value ev sep cs = Except.error TagError.invalidName) := by
  constructor
  · unfold mkTag
    by_cases h : tagNameAccepted name = true
    · rw [if_pos h]
      simp only [isOkE, true_iff]
      unfold tagNameAccepted at h
      simp only [Bool.and_eq_true, List.any_eq_true] at h
      obtain ⟨h1, t, ht, h2⟩ := h
      refine ⟨by simpa using h1, t, ht, ?_⟩
      rw [← matchLit_isSome_iff]
      unfold nameMatches at h2
      rw [get_tag_name_regex_lit] at h2
      exact h2
    · rw [if_neg h]
      simp only [isOkE, Bool.false_eq_true, false_iff]
      intro hcon
      apply h
      unfold tagNameAccepted
      simp only [Bool.and_eq_true, List.any_eq_true]
      obtain ⟨h1, t, ht, h2⟩ := hcon
      refine ⟨by simpa using h1, t, ht, ?_⟩
      unfold nameMatches
      rw [get_tag_name_regex_lit]
      rw [matchLit_isSome_iff]
      exact h2
  · unfold mkTag
    by_cases h : tagNameAccepted name = true
    · rw [if_pos h]
      simp [isOkE]
    · rw [if_neg h]
      simp [isOkE]

theorem claim_C5_witness :
    isOkE (mkTag (chars "Url") (chars "x") none (chars ":") ⟨[], []⟩) = true :=
  (claim_C5_prefix_acceptance (chars "Url") (chars "x") none (chars ":") ⟨[], []⟩).1.mpr
    ⟨by decide, chars "url", by decide, by decide⟩

/-- The expanded-value lookup of Tags.parse in tags.py: the regex is rebuilt
from the raw matched name group (original casing, so the membership tests in
get_tag_name_regex almost always yield a plain literal) and compiled without
IGNORECASE; the first line of the parsed section it matches provides the
expanded value, and with no parsed section the lookup scans an empty list. -/
def expandedLookup (parsed : Option (List Line)) (n : Line) : Option Line :=
  (parsed.getD []).findSome?
    (fun pl => (matchTagLine false (get_tag_name_regex n) pl).map (fun r => r.2.2))

/-- Model of the Tags class of tags.py: the tag list plus the remainder
lines. -/
structure Tags where
  data : List Tag
  remainder : List Line
deriving DecidableEq

/-- The loop of Tags.parse in tags.py, carrying the pending comment buffer.
The Python loop appends a Tag built through the validating constructor; the
validation cannot fire there because the name group just matched one of the
very same name regexes, so the model constructs the Tag directly. -/
def parseTagsGo (parsed : Option (List Line)) : List Line → List Line → List Tag × List Line
  | [], buffer => ([], buffer)
  | l :: rest, buffer =>
    match matchTagAny l with
    | some nsv =>
      (⟨nsv.1, nsv.2.2, expandedLookup parsed nsv.1, nsv.2.1, Comments.parse buffer⟩ ::
          (parseTagsGo parsed rest []).1,
        (parseTagsGo parsed rest []).2)
    | none => parseTagsGo parsed rest (buffer ++ [l])

/-- Tags.parse of tags.py. A Section is modelled by its list of lines (the
Section class itself lives outside this repository's core). -/
def Tags.parse (raw : List Line) (parsed : Option (List Line)) : Tags :=
  ⟨(parseTagsGo parsed raw []).1, (parseTagsGo parsed raw []).2⟩

/-- The tag line as re-emitted by Tags.get_raw_section_data. -/
def Tag.render (t : Tag) : Line := t.name ++ t.separator ++ t.value

/-- Tags.get_raw_section_data of tags.py. -/
def Tags.get_raw_section_data (ts : Tags) : List Line :=
  (ts.data.map (fun t => t.comments.get_raw_data ++ [t.render])).flatten ++ ts.remainder

/-- Model of the SourcelistEntry class of sourcelist.py (the macro-expansion
context plays no part in the claims). -/
structure SourcelistEntry where
  location : Line
  comments : Comments
deriving DecidableEq

/-- Model of the Sourcelist class of sourcelist.py. -/
structure Sourcelist where
  data : List SourcelistEntry
  remainder : List Line
deriving DecidableEq

/-- The entry test of Sourcelist.parse: the line is truthy (nonempty) and its
left-stripped form does not start with a hash. -/
def isEntryLine (l : Line) : Bool :=
  !l.isEmpty && !((l.dropWhile isSpace).head? == some '#')

/-- The loop of Sourcelist.parse in sourcelist.py. -/
def parseSrcGo : List Line → List Line → List SourcelistEntry × List Line
  | [], buffer => ([], buffer)
  | l :: rest, buffer =>
    if isEntryLine l then
      (⟨l, Comments.parse buffer⟩ :: (parseSrcGo rest []).1, (parseSrcGo rest []).2)
    else parseSrcGo rest (buffer ++ [l])

/-- Sourcelist.parse of sourcelist.py. -/
def Sourcelist.parse (sec : List Line) : Sourcelist :=
  ⟨(parseSrcGo sec []).1, (parseSrcGo sec []).2⟩

/-- Sourcelist.get_raw_section_data of sourcelist.py. -/
def Sourcelist.get_raw_section_data (sl : Sourcelist) : List Line :=
  (sl.data.map (fun e => e.comments.get_raw_data ++ [e.location])).flatten ++ sl.remainder

/-- Follows the spec's words for claim C2: positional pairing — the k-th
occurrence of a tag name among the raw lines takes its expanded value from the
k-th line matching that name's pattern among the expanded lines. -/
def positionalExpanded (parsed : List Line) (name : Line) (k : Nat) : Option Line :=
  (parsed.filterMap
    (fun pl => (matchTagLine false (get_tag_name_regex name) pl).map (fun r => r.2.2)))[k]?

def rawReq : List Line := [chars "Requires: a", chars "Requires: b"]

def parsedReq : List Line := [chars "Requires: A", chars "Requires: B"]

/-- Counterexample to claim C2 as stated: with two Requires lines in both the
raw and the expanded section, both raw occurrences receive the expanded value
of the FIRST matching expanded line; positional pairing would give the second
occurrence the second expanded value. -/
theorem claim_C2_counterexample :
    (Tags.parse rawReq (some parsedReq)).data.map Tag.expanded_value
      = [some (chars "A"), some (chars "A")]
    ∧ positionalExpanded parsedReq (chars "Requires") 1 = some (chars "B")
    ∧ (some (chars "A") : Option Line) ≠ some (chars "B") := by decide

theorem parseTagsGo_expanded (parsed : Option (List Line)) :
    ∀ (raw buffer : List Line) (i : Nat) (tag : Tag),
      (parseTagsGo parsed raw buffer).1[i]? = some tag →
      tag.expanded_value = expandedLookup parsed tag.name := by
  intro raw
  induction raw with
  | nil => intro buffer i tag h; simp [parseTagsGo] at h
  | cons l rest ih =>
    intro buffer i tag h
    unfold parseTagsGo at h
    cases hm : matchTagAny l with
    | some nsv =>
      rw [hm] at h
      cases i with
      | zero =>
        simp only [List.getElem?_cons_zero, Option.some.injEq] at h
        rw [← h]
      | succ j =>
        simp only [List.getElem?_cons_succ] at h
        exact ih [] j tag h
    | none =>
      rw [hm] at h
      exact ih (buffer ++ [l]) i tag h

/-- Amended claim C2: every occurrence of a tag name in the raw lines takes
its expanded value from the FIRST line of the expanded lines matching that
name's pattern; the pairing is first-match and identical for all occurrences,
not positional. -/
theorem claim_C2_first_match (parsed raw : List Line) (i : Nat) (tag : Tag)
    (h : (Tags.parse raw (some parsed)).data[i]? = some tag) :
    tag.expanded_value = expandedLookup (some parsed) tag.name :=
  parseTagsGo_expanded (some parsed) raw [] i tag h

def urlTagEx : Tag :=
  ⟨chars "Url", chars "x", some (chars "y"), chars ": ", ⟨[], []⟩⟩

theorem claim_C2_witness :
    (Tags.parse [chars "Url: x"] (some [chars "Url: y"])).data[0]? = some urlTagEx
    ∧ urlTagEx.expanded_value = expandedLookup (some [chars "Url: y"]) urlTagEx.name :=
  ⟨by decide, claim_C2_first_match [chars "Url: y"] [chars "Url: x"] 0 urlTagEx (by decide)⟩

theorem matchLit_append (ci : Bool) : ∀ (lit l m rest : Line),
    matchLit ci lit l = some (m, rest) → m ++ rest = l := by
  intro lit
  induction lit with
  | nil =>
    intro l m rest h
    simp only [matchLit, Option.some.injEq, Prod.mk.injEq] at h
    rw [← h.1, ← h.2]
    simp
  | cons p ps ih =>
    intro l m rest h
    cases l with
    | nil => simp [matchLit] at h
    | cons c cs =>
      unfold matchLit at h
      by_cases hcp : (if ci then lowerCh c else c) = p
      · rw [if_pos hcp] at h
        cases hm : matchLit ci ps cs with
        | none => rw [hm] at h; simp at h
        | some mr =>
          rw [hm] at h
          simp only [Option.map_some', Option.some.injEq, Prod.mk.injEq] at h
          rw [← h.1, ← h.2, List.cons_append, ih cs mr.1 mr.2 (by rw [hm])]
      · rw [if_neg hcp] at h
        exact absurd h (by simp)

theorem parseArg_append : ∀ {l c rest : Line}, parseArg l = some (c, rest) → c ++ rest = l := by
  intro l c rest h
  unfold parseArg at h
  split at h
  · rename_i c1 r1 hd
    split at h
    · rename_i hc1
      subst hc1
      split at h
      · rename_i d rest2 hd2
        split at h
        · rename_i hdp
          subst hdp
          simp only [Option.some.injEq, Prod.mk.injEq] at h
          rw [← h.1, ← h.2]
          have e3 : (r1.dropWhile isSpace).takeWhile (fun x => !isSpace x && x != ')')
              ++ ((r1.dropWhile isSpace).dropWhile (fun x => !isSpace x && x != ')'))
              = r1.dropWhile isSpace :=
            List.takeWhile_append_dropWhile _ (r1.dropWhile isSpace)
          have e4 : ((r1.dropWhile isSpace).dropWhile
                (fun x => !isSpace x && x != ')')).takeWhile isSpace ++ (')' :: rest2)
              = (r1.dropWhile isSpace).dropWhile (fun x => !isSpace x && x != ')') := by
            rw [← hd2]
            exact List.takeWhile_append_dropWhile _ _
          have e2 : r1.takeWhile isSpace ++ r1.dropWhile isSpace = r1 :=
            List.takeWhile_append_dropWhile isSpace r1
          have e1 : l.takeWhile isSpace ++ ('(' :: r1) = l := by
            rw [← hd]
            exact List.takeWhile_append_dropWhile isSpace l
          calc l.takeWhile isSpace ++
                '(' :: (r1.takeWhile isSpace
                  ++ (r1.dropWhile isSpace).takeWhile (fun x => !isSpace x && x != ')')
                  ++ ((r1.dropWhile isSpace).dropWhile
                      (fun x => !isSpace x && x != ')')).takeWhile isSpace
                  ++ [')']) ++ rest2
              = l.takeWhile isSpace ++
                '(' :: (r1.takeWhile isSpace
                  ++ ((r1.dropWhile isSpace).takeWhile (fun x => !isSpace x && x != ')')
                  ++ (((r1.dropWhile isSpace).dropWhile
                      (fun x => !isSpace x && x != ')')).takeWhile isSpace
                  ++ ')' :: rest2))) := by
                simp [List.append_assoc]
            _ = l := by rw [e4, e3, e2, e1]
        · exact absurd h (by simp)
      · exact absurd h (by simp)
    · exact absurd h (by simp)
  · exact absurd h (by simp)

theorem noNL_suffix {a b : Line} (h : noNL (a ++ b) = true) : noNL b = true := by
  simp only [noNL, List.all_append, Bool.and_eq_true] at h
  exact h.2

theorem sepTailAux_append {r : Line} (hr : noNL r = true) :
    ∀ k w v, sepTailAux r k = some (w, v) → w ++ v = r := by
  intro k
  induction k with
  | zero =>
    intro w v h
    unfold sepTailAux at h
    have ht : r.takeWhile (fun c => c != '\n') = r :=
      takeWhile_eq_self_of_all (by simpa [noNL, List.all_eq_true] using hr)
    rw [ht] at h
    split at h
    · exact absurd h (by simp)
    · simp only [Option.some.injEq, Prod.mk.injEq] at h
      rw [← h.1, ← h.2]
      simp
  | succ k ih =>
    intro w v h
    unfold sepTailAux at h
    have ht : (r.drop (k+1)).takeWhile (fun c => c != '\n') = r.drop (k+1) :=
      takeWhile_eq_self_of_all
        (by simpa [noNL, List.all_eq_true] using noNL_drop hr (k+1))
    rw [ht] at h
    split at h
    · exact ih w v h
    · simp only [Option.some.injEq, Prod.mk.injEq] at h
      rw [← h.1, ← h.2, List.take_append_drop]

theorem matchSep_append {l : Line} (hl : noNL l = true) :
    ∀ s v, matchSep l = some (s, v) → s ++ v = l := by
  intro s v h
  unfold matchSep at h
  split at h
  · rename_i c r hd
    split at h
    · rename_i hc
      subst hc
      cases hst : sepTail r with
      | none => rw [hst] at h; simp at h
      | some wv =>
        rw [hst] at h
        simp only [Option.map_some', Option.some.injEq, Prod.mk.injEq] at h
        have hr : noNL r = true := by
          have h1 : noNL (l.dropWhile isSpace) = true := by
            have h2 := List.takeWhile_append_dropWhile isSpace l
            rw [← h2] at hl
            exact noNL_suffix hl
          rw [hd] at h1
          simpa [noNL] using h1
        have hst2 : sepTailAux r ((r.takeWhile isSpace).length) = some wv := hst
        have hwv : wv.1 ++ wv.2 = r :=
          sepTailAux_append hr ((r.takeWhile isSpace).length) wv.1 wv.2 hst2
        rw [← h.1, ← h.2]
        have e1 : l.takeWhile isSpace ++ (':' :: r) = l := by
          rw [← hd]
          exact List.takeWhile_append_dropWhile isSpace l
        calc l.takeWhile isSpace ++ ':' :: wv.1 ++ wv.2
            = l.takeWhile isSpace ++ ':' :: (wv.1 ++ wv.2) := by simp [List.append_assoc]
          _ = l := by rw [hwv, e1]
    · exact absurd h (by simp)
  · exact absurd h (by simp)

theorem takeWhile_append_drop_length (p : Char → Bool) (l : Line) :
    l.takeWhile p ++ l.drop (l.takeWhile p).length = l := by
  induction l with
  | nil => rfl
  | cons a l ih =>
    by_cases h : p a = true
    · rw [List.takeWhile_cons_of_pos h]
      simpa using ih
    · rw [List.takeWhile_cons_of_neg h]
      simp

theorem matchTagLine_append (ci : Bool) (pat : NamePat) {l : Line} (hl : noNL l = true) :
    ∀ n s v, matchTagLine ci pat l = some (n, s, v) → n ++ s ++ v = l := by
  intro n s v h
  unfold matchTagLine at h
  split at h
  · exact absurd h (by simp)
  · rename_i m rest hm
    have hml : m ++ rest = l := matchLit_append ci pat.lit l m rest hm
    have hrest : noNL rest = true := noNL_suffix (hml ▸ hl)
    split at h
    · cases hs : matchSep rest with
      | none => rw [hs] at h; simp at h
      | some sv =>
        rw [hs] at h
        simp only [Option.map_some', Option.some.injEq, Prod.mk.injEq] at h
        obtain ⟨h1, h2, h3⟩ := h
        rw [← h1, ← h2, ← h3, List.append_assoc,
          matchSep_append hrest sv.1 sv.2 (by rw [hs]), hml]
    · cases hs : matchSep (rest.drop (rest.takeWhile Char.isDigit).length) with
      | none => rw [hs] at h; simp at h
      | some sv =>
        rw [hs] at h
        simp only [Option.map_some', Option.some.injEq, Prod.mk.injEq] at h
        obtain ⟨h1, h2, h3⟩ := h
        have hdrop : noNL (rest.drop (rest.takeWhile Char.isDigit).length) = true :=
          noNL_drop hrest _
        have hsv := matchSep_append hdrop sv.1 sv.2 (by rw [hs])
        have htw := takeWhile_append_drop_length Char.isDigit rest
        rw [← h1, ← h2, ← h3]
        calc m ++ rest.takeWhile Char.isDigit ++ sv.1 ++ sv.2
            = m ++ (rest.takeWhile Char.isDigit ++ (sv.1 ++ sv.2)) := by
              simp [List.append_assoc]
          _ = l := by rw [hsv, htw, hml]
    · split at h
      · rename_i cr ha
        have hcr : cr.1 ++ cr.2 = rest := parseArg_append ha
        split at h
        · rename_i sv hs
          simp only [Option.some.injEq, Prod.mk.injEq] at h
          obtain ⟨h1, h2, h3⟩ := h
          have hc2 : noNL cr.2 = true := noNL_suffix (hcr ▸ hrest)
          have hsv := matchSep_append hc2 sv.1 sv.2 hs
          rw [← h1, ← h2, ← h3]
          calc m ++ cr.1 ++ sv.1 ++ sv.2
              = m ++ (cr.1 ++ (sv.1 ++ sv.2)) := by simp [List.append_assoc]
            _ = l := by rw [hsv, hcr, hml]
        · cases hs2 : matchSep rest with
          | none => rw [hs2] at h; simp at h
          | some sv =>
            rw [hs2] at h
            simp only [Option.map_some', Option.some.injEq, Prod.mk.injEq] at h
            obtain ⟨h1, h2, h3⟩ := h
            rw [← h1, ← h2, ← h3, List.append_assoc,
              matchSep_append hrest sv.1 sv.2 (by rw [hs2]), hml]
      · cases hs : matchSep rest with
        | none => rw [hs] at h; simp at h
        | some sv =>
          rw [hs] at h
          simp only [Option.map_some', Option.some.injEq, Prod.mk.injEq] at h
          obtain ⟨h1, h2, h3⟩ := h
          rw [← h1, ← h2, ← h3, List.append_assoc,
            matchSep_append hrest sv.1 sv.2 (by rw [hs]), hml]

theorem matchTagAny_append {l : Line} (hl : noNL l = true) {n s v : Line}
    (h : matchTagAny l = some (n, s, v)) : n ++ s ++ v = l := by
  obtain ⟨p, hp, hm⟩ := List.exists_of_findSome?_eq_some h
  exact matchTagLine_append true p hl n s v hm

theorem noNLs_iff {ls : List Line} : noNLs ls = true ↔ ∀ l ∈ ls, noNL l = true := by
  simp [noNLs, List.all_eq_true]

theorem parseTagsGo_render (parsed : Option (List Line)) :
    ∀ (raw buffer : List Line), noNLs raw = true → noNLs buffer = true →
      ((parseTagsGo parsed raw buffer).1.map
          (fun t => t.comments.get_raw_data ++ [t.render])).flatten
        ++ (parseTagsGo parsed raw buffer).2 = buffer ++ raw := by
  intro raw
  induction raw with
  | nil => intro buffer _ _; simp [parseTagsGo]
  | cons l rest ih =>
    intro buffer hraw hbuf
    have hl : noNL l = true := by
      simp only [noNLs, List.all_cons, Bool.and_eq_true] at hraw
      exact hraw.1
    have hrest : noNLs rest = true := by
      simp only [noNLs, List.all_cons, Bool.and_eq_true] at hraw
      exact hraw.2
    unfold parseTagsGo
    cases hm : matchTagAny l with
    | some nsv =>
      simp only [List.map_cons, List.flatten_cons, List.append_assoc]
      have hrender : (⟨nsv.1, nsv.2.2, expandedLookup parsed nsv.1, nsv.2.1,
          Comments.parse buffer⟩ : Tag).render = l := by
        have := matchTagAny_append hl hm
        simpa [Tag.render] using this
      have hcomments : (Tag.comments ⟨nsv.1, nsv.2.2, expandedLookup parsed nsv.1, nsv.2.1,
          Comments.parse buffer⟩).get_raw_data = buffer := comments_parse_raw_data buffer hbuf
      rw [hrender, hcomments, ih [] hrest (by decide)]
      simp
    | none =>
      have hb2 : noNLs (buffer ++ [l]) = true := by
        rw [noNLs_iff] at hbuf ⊢
        intro x hx
        rw [List.mem_append] at hx
        cases hx with
        | inl h1 => exact hbuf x h1
        | inr h2 => simp at h2; rw [h2]; exact hl
      rw [ih (buffer ++ [l]) hrest hb2]
      simp

theorem tags_parse_render (parsed : Option (List Line)) (L : List Line)
    (h : noNLs L = true) : (Tags.parse L parsed).get_raw_section_data = L := by
  unfold Tags.parse Tags.get_raw_section_data
  simpa using parseTagsGo_render parsed L [] h (by decide)

theorem parseSrcGo_render :
    ∀ (sec buffer : List Line), noNLs sec = true → noNLs buffer = true →
      ((parseSrcGo sec buffer).1.map
          (fun e => e.comments.get_raw_data ++ [e.location])).flatten
        ++ (parseSrcGo sec buffer).2 = buffer ++ sec := by
  intro sec
  induction sec with
  | nil => intro buffer _ _; simp [parseSrcGo]
  | cons l rest ih =>
    intro buffer hsec hbuf
    have hl : noNL l = true := by
      simp only [noNLs, List.all_cons, Bool.and_eq_true] at hsec
      exact hsec.1
    have hrest : noNLs rest = true := by
      simp only [noNLs, List.all_cons, Bool.and_eq_true] at hsec
      exact hsec.2
    unfold parseSrcGo
    by_cases he : isEntryLine l = true
    · rw [if_pos he]
      simp only [List.map_cons, List.flatten_cons, List.append_assoc]
      rw [comments_parse_raw_data buffer hbuf, ih [] hrest (by decide)]
      simp
    · rw [if_neg he]
      have hb2 : noNLs (buffer ++ [l]) = true := by
        rw [noNLs_iff] at hbuf ⊢
        intro x hx
        rw [List.mem_append] at hx
        cases hx with
        | inl h1 => exact hbuf x h1
        | inr h2 => simp at h2; rw [h2]; exact hl
      rw [ih (buffer ++ [l]) hrest hb2]
      simp

theorem sourcelist_parse_render (L : List Line) (h : noNLs L = true) :
    (Sourcelist.parse L).get_raw_section_data = L := by
  unfold Sourcelist.parse Sourcelist.get_raw_section_data
  simpa using parseSrcGo_render L [] h (by decide)

/-- All strings of a Comment are newline-free. -/
def commentNoNL (c : Comment) : Bool := noNL c.pfx && noNL c.text

/-- All strings of a Comments value are newline-free. -/
def commentsNoNL (cs : Comments) : Bool :=
  cs.data.all commentNoNL && noNLs cs.preceding_lines

/-- All strings of a Tag are newline-free. -/
def tagNoNL (t : Tag) : Bool :=
  noNL t.name && noNL t.separator && noNL t.value && commentsNoNL t.comments

/-- All strings of a Tags value are newline-free. -/
def tagsNoNL (ts : Tags) : Bool := ts.data.all tagNoNL && noNLs ts.remainder

/-- All strings of a SourcelistEntry are newline-free. -/
def entryNoNL (e : SourcelistEntry) : Bool := noNL e.location && commentsNoNL e.comments

/-- All strings of a Sourcelist value are newline-free. -/
def sourcelistNoNL (sl : Sourcelist) : Bool :=
  sl.data.all entryNoNL && noNLs sl.remainder

theorem noNL_append {a b : Line} (ha : noNL a = true) (hb : noNL b = true) :
    noNL (a ++ b) = true := by
  simp only [noNL, List.all_append, Bool.and_eq_true]
  exact ⟨ha, hb⟩

theorem comments_raw_data_noNL {cs : Comments} (h : commentsNoNL cs = true) :
    ∀ l ∈ cs.get_raw_data, noNL l = true := by
  simp only [commentsNoNL, Bool.and_eq_true, List.all_eq_true] at h
  intro l hl
  unfold Comments.get_raw_data at hl
  rw [List.mem_append] at hl
  cases hl with
  | inl h1 => exact (noNLs_iff.mp h.2) l h1
  | inr h2 =>
    rw [List.mem_map] at h2
    obtain ⟨c, hc, rfl⟩ := h2
    have := h.1 c hc
    simp only [commentNoNL, Bool.and_eq_true] at this
    exact noNL_append this.1 this.2

theorem tags_render_noNL {ts : Tags} (h : tagsNoNL ts = true) :
    noNLs ts.get_raw_section_data = true := by
  simp only [tagsNoNL, Bool.and_eq_true, List.all_eq_true] at h
  rw [noNLs_iff]
  intro l hl
  unfold Tags.get_raw_section_data at hl
  rw [List.mem_append] at hl
  cases hl with
  | inr h2 => exact (noNLs_iff.mp h.2) l h2
  | inl h1 =>
    rw [List.mem_flatten] at h1
    obtain ⟨piece, hp, hlp⟩ := h1
    rw [List.mem_map] at hp
    obtain ⟨t, ht, rfl⟩ := hp
    have htl := h.1 t ht
    simp only [tagNoNL, Bool.and_eq_true] at htl
    rw [List.mem_append] at hlp
    cases hlp with
    | inl h3 => exact comments_raw_data_noNL htl.2 l h3
    | inr h4 =>
      simp only [List.mem_singleton] at h4
      rw [h4]
      unfold Tag.render
      exact noNL_append (noNL_append htl.1.1.1 htl.1.1.2) htl.1.2

theorem sourcelist_render_noNL {sl : Sourcelist} (h : sourcelistNoNL sl = true) :
    noNLs sl.get_raw_section_data = true := by
  simp only [sourcelistNoNL, Bool.and_eq_true, List.all_eq_true] at h
  rw [noNLs_iff]
  intro l hl
  unfold Sourcelist.get_raw_section_data at hl
  rw [List.mem_append] at hl
  cases hl with
  | inr h2 => exact (noNLs_iff.mp h.2) l h2
  | inl h1 =>
    rw [List.mem_flatten] at h1
    obtain ⟨piece, hp, hlp⟩ := h1
    rw [List.mem_map] at hp
    obtain ⟨e, he, rfl⟩ := hp
    have hel := h.1 e he
    simp only [entryNoNL, Bool.and_eq_true] at hel
    rw [List.mem_append] at hlp
    cases hlp with
    | inl h3 => exact comments_raw_data_noNL hel.2 l h3
    | inr h4 =>
      simp only [List.mem_singleton] at h4
      rw [h4]
      exact hel.1

/-- A Tags value whose only tag holds a newline inside its value; the Python
Tag constructor accepts it, since only the name is validated. -/
def badTags : Tags :=
  ⟨[⟨chars "Name", chars "a\nb", none, chars ": ", ⟨[], []⟩⟩], []⟩

/-- Counterexample to claim C1 as stated, over every Tags value: rendering
badTags yields the single line Name colon a newline b, whose reparse cuts the
value at the newline (the dot of the value group does not match a newline), so
the second rendering drops the tail of the value. -/
theorem claim_C1_counterexample :
    (Tags.parse badTags.get_raw_section_data none).get_raw_section_data
      ≠ badTags.get_raw_section_data := by decide

/-- Amended claim C1: for every Tags or Sourcelist value whose constituent
strings are newline-free, rendering, reparsing and rendering again reproduces
the first rendering exactly (in fact reparsing any newline-free line list and
rendering reproduces that list). -/
theorem claim_C1_roundtrip (ts : Tags) (sl : Sourcelist)
    (hts : tagsNoNL ts = true) (hsl : sourcelistNoNL sl = true) :
    (Tags.parse ts.get_raw_section_data none).get_raw_section_data
      = ts.get_raw_section_data
    ∧ (Sourcelist.parse sl.get_raw_section_data).get_raw_section_data
      = sl.get_raw_section_data :=
  ⟨tags_parse_render none _ (tags_render_noNL hts),
    sourcelist_parse_render _ (sourcelist_render_noNL hsl)⟩

def witnessTags : Tags :=
  ⟨[⟨chars "Name", chars "test", none, chars ": ",
      ⟨[⟨chars "a comment", chars "# "⟩], [[]]⟩⟩],
    [[], chars "%description"]⟩

def witnessSourcelist : Sourcelist :=
  ⟨[⟨chars "foo.tar.gz", ⟨[⟨chars "the tarball", chars "# "⟩], []⟩⟩], []⟩

theorem claim_C1_witness :
    tagsNoNL witnessTags = true
    ∧ sourcelistNoNL witnessSourcelist = true
    ∧ (Tags.parse witnessTags.get_raw_section_data none).get_raw_section_data
      = witnessTags.get_raw_section_data
    ∧ (Sourcelist.parse witnessSourcelist.get_raw_section_data).get_raw_section_data
      = witnessSourcelist.get_raw_section_data := by
  refine ⟨by decide, by decide, ?_, ?_⟩
  · exact (claim_C1_roundtrip witnessTags witnessSourcelist (by decide) (by decide)).1
  · exact (claim_C1_roundtrip witnessTags witnessSourcelist (by decide) (by decide)).2

/-- The first reversed-dropwhile-reversed of Tags.__delitem__: the preceding
lines of the deleted tag with their trailing run of blank lines removed
(Python tests a line with "not l", true exactly for the empty line). -/
def trimTrailingBlanks (p : List Line) : List Line :=
  (p.reverse.dropWhile (fun l => l.isEmpty)).reverse

/-- The dropwhile of Tags.__delitem__: the target lines with their leading run
of blank lines removed. -/
def trimLeadingBlanks (q : List Line) : List Line := q.dropWhile (fun l => l.isEmpty)

/-- The delimiter of Tags.__delitem__: one blank line exactly when the
preceding lines end with a blank line or the target lines start with one. -/
def seamDelim (p q : List Line) : List Line :=
  if (p ≠ [] ∧ p.getLast? = some []) ∨ (q ≠ [] ∧ q.head? = some []) then [([] : Line)]
  else []

/-- The line surgery of Tags.__delitem__: trimmed preceding lines of the
deleted tag, the delimiter, then the trimmed target lines. -/
def collapse (p q : List Line) : List Line :=
  trimTrailingBlanks p ++ seamDelim p q ++ trimLeadingBlanks q

/-- Tags.__delitem__ of tags.py for a single valid index (the slice form
iterates this same deletion; Python raises IndexError on an invalid index,
modelled as the identity since no claim concerns it). After the del, the
element previously at index plus one sits at the index — here the head of
dropping index plus one elements — and its preceding lines, or the remainder
when the deleted tag was last, are replaced by the collapsed lines. -/
def Tags.delitem (ts : Tags) (i : Nat) : Tags :=
  match ts.data[i]? with
  | none => ts
  | some t =>
    match ts.data.drop (i+1) with
    | [] => ⟨ts.data.take i, collapse t.comments.preceding_lines ts.remainder⟩
    | nxt :: rest =>
      ⟨ts.data.take i ++
          { nxt with comments := { nxt.comments with
              preceding_lines :=
                collapse t.comments.preceding_lines nxt.comments.preceding_lines } } :: rest,
        ts.remainder⟩

/-- The end-of-conditional scan of Tags.insert: index of the first line
starting with the %endif marker, splitting the lines after it. -/
def splitEndif (lines : List Line) : Option (List Line × List Line) :=
  match lines.findIdx? (fun l => (chars "%endif").isPrefixOf l) with
  | none => none
  | some j => some (lines.take (j+1), lines.drop (j+1))

/-- Tags.insert of tags.py. The index is clamped to the length; the preceding
lines of the entity that will follow the new tag (the tag previously at the
insertion index, or the remainder when inserting at the end) are scanned for
an end-of-conditional marker, and the lines up to and including it move to the
front of the new tag's preceding lines. -/
def Tags.insert (ts : Tags) (i0 : Nat) (item : Tag) : Tags :=
  match ts.data.drop (min i0 ts.data.length) with
  | [] =>
    match splitEndif ts.remainder with
    | none => ⟨ts.data ++ [item], ts.remainder⟩
    | some pp =>
      ⟨ts.data ++ [{ item with comments := { item.comments with
          preceding_lines := pp.1 ++ item.comments.preceding_lines } }], pp.2⟩
  | nxt :: rest =>
    match splitEndif nxt.comments.preceding_lines with
    | none =>
      ⟨ts.data.take (min i0 ts.data.length) ++ item :: nxt :: rest, ts.remainder⟩
    | some pp =>
      ⟨ts.data.take (min i0 ts.data.length) ++
          { item with comments := { item.comments with
              preceding_lines := pp.1 ++ item.comments.preceding_lines } } ::
          { nxt with comments := { nxt.comments with preceding_lines := pp.2 } } :: rest,
        ts.remainder⟩

/-- The preceding lines of the entity that would follow a tag inserted at the
given index: those of the tag at the clamped index, or the remainder. -/
def Tags.linesAt (ts : Tags) (i0 : Nat) : List Line :=
  match ts.data[min i0 ts.data.length]? with
  | some nxt => nxt.comments.preceding_lines
  | none => ts.remainder

/-- Deleting the tag at any valid index keeps every earlier tag unchanged,
shifts every later tag down by one, hands the deleted tag's preceding lines to
the next tag (or to the remainder when the deleted tag was last) through the
collapse surgery, and that surgery only trims the blank runs meeting at the
seam, inserting at most one blank line there exactly when either side touched
the seam with a blank line. -/
theorem claim_C6_delete_seam (ts : Tags) (i : Nat) (t : Tag)
    (h : ts.data[i]? = some t) :
    (Tags.delitem ts i).data.length = ts.data.length - 1
    ∧ (∀ j, j < i → (Tags.delitem ts i).data[j]? = ts.data[j]?)
    ∧ (∀ j, i < j → (Tags.delitem ts i).data[j]? = ts.data[j+1]?)
    ∧ (∀ nxt, ts.data[i+1]? = some nxt →
        (Tags.delitem ts i).data[i]? = some { nxt with comments := { nxt.comments with
            preceding_lines :=
              collapse t.comments.preceding_lines nxt.comments.preceding_lines } }
        ∧ (Tags.delitem ts i).remainder = ts.remainder)
    ∧ (ts.data[i+1]? = none →
        (Tags.delitem ts i).data[i]? = none
        ∧ (Tags.delitem ts i).remainder = collapse t.comments.preceding_lines ts.remainder)
    ∧ (∀ p q : List Line,
        collapse p q = trimTrailingBlanks p ++ seamDelim p q ++ trimLeadingBlanks q
        ∧ (seamDelim p q).length ≤ 1
        ∧ (∀ x ∈ seamDelim p q, x = ([] : Line))
        ∧ (seamDelim p q ≠ [] ↔ p.getLast? = some [] ∨ q.head? = some [])) := by
  have hi : i < ts.data.length := by
    rcases List.getElem?_eq_some_iff.mp h with ⟨hlt, _⟩
    exact hlt
  have hseam : ∀ p q : List Line,
      collapse p q = trimTrailingBlanks p ++ seamDelim p q ++ trimLeadingBlanks q
      ∧ (seamDelim p q).length ≤ 1
      ∧ (∀ x ∈ seamDelim p q, x = ([] : Line))
      ∧ (seamDelim p q ≠ [] ↔ p.getLast? = some [] ∨ q.head? = some []) := by
    intro p q
    refine ⟨rfl, ?_, ?_, ?_⟩
    · unfold seamDelim
      split <;> simp
    · unfold seamDelim
      split <;> simp
    · unfold seamDelim
      split
      · rename_i hcond
        simp only [ne_eq, List.cons_ne_nil, not_false_eq_true, true_iff]
        rcases hcond with ⟨_, h1⟩ | ⟨_, h2⟩
        · exact Or.inl h1
        · exact Or.inr h2
      · rename_i hcond
        simp only [ne_eq, not_true_eq_false, false_iff]
        push_neg at hcond
        intro hor
        rcases hor with h1 | h2
        · have hp : p ≠ [] := by
            intro hcon
            rw [hcon] at h1
            simp at h1
          exact (hcond.1 hp) h1
        · have hq : q ≠ [] := by
            intro hcon
            rw [hcon] at h2
            simp at h2
          exact (hcond.2 hq) h2
  cases hdrop : ts.data.drop (i+1) with
  | nil =>
    have hlen : ts.data.length = i + 1 := by
      have := List.drop_eq_nil_iff.mp hdrop
      omega
    have hnone : ts.data[i+1]? = none := List.getElem?_eq_none (by omega)
    have hres : Tags.delitem ts i =
        ⟨ts.data.take i, collapse t.comments.preceding_lines ts.remainder⟩ := by
      unfold Tags.delitem
      rw [h, hdrop]
    refine ⟨?_, ?_, ?_, ?_, ?_, hseam⟩
    · rw [hres]
      simp [hlen]
    · intro j hj
      rw [hres]
      exact List.getElem?_take_of_lt hj
    · intro j hj
      rw [hres]
      have hA : (ts.data.take i)[j]? = none :=
        List.getElem?_eq_none (by simp only [List.length_take]; omega)
      have hB : ts.data[j+1]? = none := List.getElem?_eq_none (by omega)
      exact hA.trans hB.symm
    · intro nxt hn
      rw [hnone] at hn
      exact absurd hn (by simp)
    · intro _
      rw [hres]
      exact ⟨List.getElem?_eq_none (by simp only [List.length_take]; omega), rfl⟩
  | cons nxt rest =>
    have hnxt : ts.data[i+1]? = some nxt := by
      have h0 := List.getElem?_drop ts.data (i+1) 0
      rw [hdrop] at h0
      simpa using h0.symm
    have hres : Tags.delitem ts i =
        ⟨ts.data.take i ++ { nxt with comments := { nxt.comments with
            preceding_lines :=
              collapse t.comments.preceding_lines nxt.comments.preceding_lines } } :: rest,
          ts.remainder⟩ := by
      unfold Tags.delitem
      rw [h, hdrop]
    have hlen2 : ts.data.length = i + rest.length + 2 := by
      have hc := congrArg List.length hdrop
      simp only [List.length_drop, List.length_cons] at hc
      omega
    have htakelen : (ts.data.take i).length = i := by
      simp only [List.length_take]
      omega
    refine ⟨?_, ?_, ?_, ?_, ?_, hseam⟩
    · rw [hres]
      simp only [List.length_append, List.length_cons, htakelen]
      omega
    · intro j hj
      rw [hres]
      rw [List.getElem?_append_left
        (show j < (ts.data.take i).length by rw [htakelen]; exact hj)]
      exact List.getElem?_take_of_lt hj
    · intro j hj
      rw [hres]
      rw [List.getElem?_append_right (by rw [htakelen]; omega), htakelen]
      have hji : j - i = (j - i - 1) + 1 := by omega
      rw [hji, List.getElem?_cons_succ]
      have hrest : rest = ts.data.drop (i+1+1) := by
        have hdd : (ts.data.drop (i+1)).drop 1 = ts.data.drop (i+1+1) := by
          rw [List.drop_drop]
        rw [hdrop] at hdd
        simpa using hdd
      rw [hrest, List.getElem?_drop]
      congr 1
      omega
    · intro nxt0 hn0
      rw [hnxt] at hn0
      have hEq : nxt = nxt0 := by simpa using hn0
      subst hEq
      rw [hres]
      constructor
      · rw [List.getElem?_append_right (by rw [htakelen]), htakelen]
        simp
      · rfl
    · intro hn0
      rw [hnxt] at hn0
      exact absurd hn0 (by simp)

def tagA6 : Tag :=
  ⟨chars "Source0", chars "foo.tar.gz", none, chars ": ",
    ⟨[], [chars "# x", []]⟩⟩

def tagB6 : Tag :=
  ⟨chars "Source1", chars "bar.tar.gz", none, chars ": ",
    ⟨[], [[], chars "# y"]⟩⟩

def tsC6 : Tags := ⟨[tagA6, tagB6], [chars "%build"]⟩

theorem claim_C6_witness :
    tsC6.data[0]? = some tagA6
    ∧ (Tags.delitem tsC6 0).data[0]? =
      some { tagB6 with comments := { tagB6.comments with
          preceding_lines := collapse tagA6.comments.preceding_lines
            tagB6.comments.preceding_lines } }
    ∧ collapse tagA6.comments.preceding_lines tagB6.comments.preceding_lines
      = [chars "# x", [], chars "# y"] := by
  refine ⟨by decide, ?_, by decide⟩
  exact ((claim_C6_delete_seam tsC6 0 tagA6 (by decide)).2.2.2.1 tagB6 (by decide)).1

/-- Inserting a tag at an index whose following entity carries an
end-of-conditional marker among its preceding lines moves the lines up to and
including the first marker onto the new tag's preceding lines; the follower
keeps only the lines after the marker (the remainder does, when inserting at
the end), and everything else is untouched. -/
theorem claim_C7_insert_endif (ts : Tags) (i0 : Nat) (item : Tag) (j : Nat)
    (h : (Tags.linesAt ts i0).findIdx? (fun l => (chars "%endif").isPrefixOf l) = some j) :
    (Tags.insert ts i0 item).data[min i0 ts.data.length]? =
      some { item with comments := { item.comments with
        preceding_lines :=
          (Tags.linesAt ts i0).take (j+1) ++ item.comments.preceding_lines } }
    ∧ (∀ nxt, ts.data[min i0 ts.data.length]? = some nxt →
        (Tags.insert ts i0 item).data[min i0 ts.data.length + 1]? =
          some { nxt with comments := { nxt.comments with
            preceding_lines := (Tags.linesAt ts i0).drop (j+1) } }
        ∧ (Tags.insert ts i0 item).remainder = ts.remainder)
    ∧ (ts.data[min i0 ts.data.length]? = none →
        (Tags.insert ts i0 item).remainder = (Tags.linesAt ts i0).drop (j+1)) := by
  cases hdrop : ts.data.drop (min i0 ts.data.length) with
  | nil =>
    have hm : min i0 ts.data.length = ts.data.length := by
      have := List.drop_eq_nil_iff.mp hdrop
      omega
    have hnone : ts.data[min i0 ts.data.length]? = none := by
      rw [hm]
      exact List.getElem?_eq_none (Nat.le_refl _)
    have hlines : Tags.linesAt ts i0 = ts.remainder := by
      unfold Tags.linesAt
      rw [hnone]
    rw [hlines] at h
    have hsp : splitEndif ts.remainder =
        some (ts.remainder.take (j+1), ts.remainder.drop (j+1)) := by
      unfold splitEndif
      rw [h]
    have hres : Tags.insert ts i0 item =
        ⟨ts.data ++ [{ item with comments := { item.comments with
            preceding_lines := ts.remainder.take (j+1) ++ item.comments.preceding_lines } }],
          ts.remainder.drop (j+1)⟩ := by
      unfold Tags.insert
      rw [hdrop, hsp]
    refine ⟨?_, ?_, ?_⟩
    · rw [hres, hlines, hm]
      rw [List.getElem?_append_right (Nat.le_refl _)]
      simp
    · intro nxt hn
      rw [hnone] at hn
      exact absurd hn (by simp)
    · intro _
      rw [hres, hlines]
  | cons nxt rest =>
    have hsome : ts.data[min i0 ts.data.length]? = some nxt := by
      have h0 := List.getElem?_drop ts.data (min i0 ts.data.length) 0
      rw [hdrop] at h0
      simpa using h0.symm
    have hmlt : min i0 ts.data.length < ts.data.length := by
      rcases List.getElem?_eq_some_iff.mp hsome with ⟨hlt, _⟩
      exact hlt
    have hlines : Tags.linesAt ts i0 = nxt.comments.preceding_lines := by
      unfold Tags.linesAt
      rw [hsome]
    rw [hlines] at h
    have hsp : splitEndif nxt.comments.preceding_lines =
        some (nxt.comments.preceding_lines.take (j+1),
          nxt.comments.preceding_lines.drop (j+1)) := by
      unfold splitEndif
      rw [h]
    have hres : Tags.insert ts i0 item =
        ⟨ts.data.take (min i0 ts.data.length) ++
            { item with comments := { item.comments with
                preceding_lines :=
                  nxt.comments.preceding_lines.take (j+1) ++ item.comments.preceding_lines } } ::
            { nxt with comments := { nxt.comments with
                preceding_lines := nxt.comments.preceding_lines.drop (j+1) } } :: rest,
          ts.remainder⟩ := by
      simp only [Tags.insert, hdrop, hsp]
    have htakelen : (ts.data.take (min i0 ts.data.length)).length = min i0 ts.data.length := by
      simp only [List.length_take]
      omega
    refine ⟨?_, ?_, ?_⟩
    · rw [hres, hlines]
      rw [List.getElem?_append_right (htakelen.le)]
      rw [htakelen]
      simp
    · intro nxt0 hn0
      rw [hsome] at hn0
      have hEq : nxt = nxt0 := by simpa using hn0
      subst hEq
      rw [hres, hlines]
      constructor
      · rw [List.getElem?_append_right
          (show (ts.data.take (min i0 ts.data.length)).length ≤ min i0 ts.data.length + 1 by
            rw [htakelen]
            omega)]
        rw [htakelen]
        simp
      · rfl
    · intro hn0
      rw [hsome] at hn0
      exact absurd hn0 (by simp)

def itemC7 : Tag := ⟨chars "Source2", chars "baz.tar.gz", none, chars ": ", ⟨[], []⟩⟩

def tsC7 : Tags :=
  ⟨[⟨chars "Source0", chars "foo.tar.gz", none, chars ": ",
      ⟨[], [chars "%if 0", chars "%endif", chars "# z"]⟩⟩],
    []⟩

theorem claim_C7_witness :
    (Tags.linesAt tsC7 0).findIdx? (fun l => (chars "%endif").isPrefixOf l) = some 1
    ∧ (Tags.insert tsC7 0 itemC7).data[0]? =
      some { itemC7 with comments := { itemC7.comments with
        preceding_lines := (Tags.linesAt tsC7 0).take 2 ++ itemC7.comments.preceding_lines } } := by
  refine ⟨by decide, ?_⟩
  exact (claim_C7_insert_endif tsC7 0 itemC7 1 (by decide)).1

deriving instance DecidableEq for Except

/-- Result of an oracle parse: the source strings of the parsed spec (the
first component of each rpm spec sources triple). -/
structure OracleSpec where
  sources : List String
deriving DecidableEq

/-- The two flag combinations get_rpm_spec is called with in _do_parse:
ANYARCH plus FORCE for the two non-build parses, ANYARCH alone for the final
full parse. -/
inductive ParseMode
  | nonbuild
  | full
deriving DecidableEq

/-- Errors escaping the modelled _do_parse: the RPMException raised by the
oracle (its stderr payload plays no part in the claims), and the Python
UnboundLocalError raised by the del statement when the first parse failed and
no dummy source was created, so the local variable spec was never assigned. -/
inductive PipeErr
  | rpmError
  | unboundLocal
deriving DecidableEq

/-- Environment of one _do_parse call. The document content and macro
definitions are fixed for the call, leaving the oracle as a function of the
parse flags and of the set of files present in the source directory; the two
static reference scans (collect_included_sources and
collect_sources_referenced_from_tags, which consult the excluded macro and
value-parsing collaborators) are the lists they yield on this document; and
get_filename_from_location, a helper outside this repository's core, is a
function on locations returning the empty string when no filename can be
derived. The file system is the list of file names present in the source
directory. -/
structure ParseCtx where
  oracleParse : ParseMode → List String → Except Unit OracleSpec
  collectIncluded : List String
  collectFromTags : List String
  filenameOf : String → String

/-- One creation loop of _make_dummy_sources: skip sources with no filename
and files already present, otherwise record the dummy and create the file.
The written bytes (a magic signature padded to thirteen bytes, all-zero
padding, or the DUMMY text) do not affect which files exist and are not
modelled. -/
def mkDummyLoop (fn : String → String) : List String → List String → List String →
    List String × List String
  | [], dummy, fs => (dummy, fs)
  | s :: rest, dummy, fs =>
    if fn s = "" then mkDummyLoop fn rest dummy fs
    else if fn s ∈ fs then mkDummyLoop fn rest dummy fs
    else mkDummyLoop fn rest (dummy ++ [fn s]) (fs ++ [fn s])

/-- Setup phase of the _make_dummy_sources context manager: first the sources
faked with signature files, then the sources faked with non-empty text files.
Returns the created dummy files and the new file set. -/
def makeDummySources (fn : String → String) (fs sources nonEmpty : List String) :
    List String × List String :=
  mkDummyLoop fn nonEmpty (mkDummyLoop fn sources [] fs).1 (mkDummyLoop fn sources [] fs).2

/-- Teardown phase of the context manager: unlink every created dummy. In the
source this loop sits after the yield with no try and finally around it, so it
runs only when the with-body exits without an exception; an exception thrown
into the generator at the yield propagates and skips it. -/
def unlinkAll (fs dummy : List String) : List String :=
  fs.filter (fun f => f ∉ dummy)

/-- Outcome of one modelled _do_parse call: the returned value or escaped
error, the files present in the source directory afterwards, and the list of
every dummy file the call synthesized at any point (a ghost log used only to
state the claims). -/
structure DoParseResult where
  result : Except PipeErr (OracleSpec × Bool)
  fs : List String
  created : List String
deriving DecidableEq

/-- The last two statements of _do_parse, reached by every path that did not
raise earlier: create dummy sources for the given source sets, run the full
non-forced parse inside the with-block, and unlink the dummies only when it
succeeds — when it raises, the exception thrown into the context manager at
its yield skips the unlink loop and the dummy files persist. -/
def finalStage (ctx : ParseCtx) (fs : List String) (sources nonEmpty : List String)
    (tainted : Bool) (created : List String) : DoParseResult :=
  match ctx.oracleParse ParseMode.full
      (makeDummySources ctx.filenameOf fs sources nonEmpty).2 with
  | Except.ok spec =>
    ⟨Except.ok (spec, tainted),
      unlinkAll (makeDummySources ctx.filenameOf fs sources nonEmpty).2
        (makeDummySources ctx.filenameOf fs sources nonEmpty).1,
      created ++ (makeDummySources ctx.filenameOf fs sources nonEmpty).1⟩
  | Except.error _ =>
    ⟨Except.error PipeErr.rpmError,
      (makeDummySources ctx.filenameOf fs sources nonEmpty).2,
      created ++ (makeDummySources ctx.filenameOf fs sources nonEmpty).1⟩

/-- The dummy sources of the forced branch, built from the two static scans. -/
def forcedDummies (ctx : ParseCtx) (fs : List String) : List String × List String :=
  makeDummySources ctx.filenameOf fs ctx.collectIncluded ctx.collectFromTags

/-- The except-branch of _do_parse once forcing is enabled and at least one
scan found references. When no dummy file was actually created (every
referenced file exists or yields no filename), the with-body does nothing, the
manager unlinks nothing, and the del statement that follows the with-block
hits the never-assigned local spec, raising UnboundLocalError before the final
stage is reached. Otherwise the second non-build parse runs inside the
with-block: its failure propagates through the context manager, skipping the
unlink loop and leaving the dummy files behind; its success lets the manager
unlink the dummies, after which the final stage reruns on the spec's own
sources minus the non-empty ones, with tainted set. -/
def forcedStage (ctx : ParseCtx) (fs : List String) : DoParseResult :=
  if (forcedDummies ctx fs).1 = [] then
    ⟨Except.error PipeErr.unboundLocal, fs, []⟩
  else
    match ctx.oracleParse ParseMode.nonbuild (forcedDummies ctx fs).2 with
    | Except.error _ =>
      ⟨Except.error PipeErr.rpmError, (forcedDummies ctx fs).2, (forcedDummies ctx fs).1⟩
    | Except.ok spec2 =>
      finalStage ctx
        (unlinkAll (forcedDummies ctx fs).2 (forcedDummies ctx fs).1)
        (spec2.sources.filter (fun s => s ∉ ctx.collectFromTags))
        ctx.collectFromTags
        true
        (forcedDummies ctx fs).1

/-- SpecParser._do_parse of spec_parser.py: a first non-build parse; on
failure either propagate (forcing disabled), re-raise when both static scans
came up empty, or enter the forced branch; then the final full parse with
dummy sources in place. -/
def doParse (ctx : ParseCtx) (forceParse : Bool) (fs : List String) : DoParseResult :=
  match ctx.oracleParse ParseMode.nonbuild fs with
  | Except.ok spec => finalStage ctx fs spec.sources [] false []
  | Except.error _ =>
    if forceParse then
      if ctx.collectIncluded = [] ∧ ctx.collectFromTags = [] then
        ⟨Except.error PipeErr.rpmError, fs, []⟩
      else forcedStage ctx fs
    else ⟨Except.error PipeErr.rpmError, fs, []⟩

/-- A call on which the first non-build parse succeeds, listing one source
that is missing on disk, and the final full parse fails. -/
def ctxC3 : ParseCtx :=
  ⟨fun mode _ =>
    match mode with
    | ParseMode.nonbuild => Except.ok ⟨["foo.tar.gz"]⟩
    | ParseMode.full => Except.error (),
    [], [], id⟩

/-- The cleanup claim fails on the code: when the final full parse raises with
a dummy source in place, the context manager (whose generator has no try and
finally) never reaches its unlink loop, and the synthesized file foo.tar.gz is
still present after the call although the source directory was empty before
it. -/
theorem claim_C3_leak :
    doParse ctxC3 false [] =
      ⟨Except.error PipeErr.rpmError, ["foo.tar.gz"], ["foo.tar.gz"]⟩
    ∧ "foo.tar.gz" ∉ ([] : List String) := by decide

/-- A call on which the first non-build parse succeeds, listing one source
that is missing on disk, and the full parse succeeds once the file exists. -/
def ctxC4 : ParseCtx :=
  ⟨fun mode fs =>
    match mode with
    | ParseMode.nonbuild => Except.ok ⟨["foo.tar.gz"]⟩
    | ParseMode.full =>
      if "foo.tar.gz" ∈ fs then Except.ok ⟨["foo.tar.gz"]⟩ else Except.error (),
    [], [], id⟩

/-- Counterexample to claim C4 as stated: the initial non-build parse
succeeds, yet the call synthesizes a placeholder (for the spec's missing
source foo.tar.gz) before the final full parse — the final with-block runs on
every path, success of attempt A included. The call still completes with
tainted false. -/
theorem claim_C4_counterexample :
    ctxC4.oracleParse ParseMode.nonbuild [] = Except.ok ⟨["foo.tar.gz"]⟩
    ∧ doParse ctxC4 false [] =
      ⟨Except.ok (⟨["foo.tar.gz"]⟩, false), [], ["foo.tar.gz"]⟩
    ∧ (["foo.tar.gz"] : List String) ≠ [] := by decide

/-- Amended claim C4: when the initial non-build parse succeeds, the
reference-collection and first-synthesis machinery of the forced branch is
skipped entirely — the call is exactly the final stage on the spec's own
sources — and whenever the call completes, tainted is false; however the
final stage may still synthesize (and, on success, delete again) placeholders
for sources missing from disk. -/
theorem claim_C4_amended (ctx : ParseCtx) (forceParse : Bool) (fs : List String)
    (spec : OracleSpec) (h : ctx.oracleParse ParseMode.nonbuild fs = Except.ok spec) :
    doParse ctx forceParse fs = finalStage ctx fs spec.sources [] false []
    ∧ (∀ sp t, (doParse ctx forceParse fs).result = Except.ok (sp, t) → t = false) := by
  have h1 : doParse ctx forceParse fs = finalStage ctx fs spec.sources [] false [] := by
    unfold doParse
    rw [h]
  refine ⟨h1, ?_⟩
  intro sp t hok
  rw [h1] at hok
  cases hfull : ctx.oracleParse ParseMode.full
      (makeDummySources ctx.filenameOf fs spec.sources []).2 with
  | ok spec2 =>
    simp only [finalStage, hfull] at hok
    have h2 : (spec2, false) = (sp, t) := by
      injection hok
    have h3 := congrArg Prod.snd h2
    exact h3.symm
  | error e =>
    simp only [finalStage, hfull] at hok
    exact absurd hok (by simp)

theorem claim_C4_witness :
    ctxC4.oracleParse ParseMode.nonbuild [] = Except.ok ⟨["foo.tar.gz"]⟩
    ∧ doParse ctxC4 false [] = finalStage ctxC4 [] ["foo.tar.gz"] [] false [] := by
  refine ⟨by decide, ?_⟩
  exact (claim_C4_amended ctxC4 false [] ⟨["foo.tar.gz"]⟩ (by decide)).1
